import Mathlib

/-!
Verification development for the wiki-categories pipeline
(src/categories/process_categories.py), a shallow embedding of the
category graph assembly, pruning and sharded binary export stages.

Bytes are modelled as `List Nat` (each entry a byte value), machine
integers as `Nat` with explicit reductions mod 2^32 where the source
packs fixed-width words, and fallible operations (numpy percentile of an
empty list, `max` of an empty sequence) return `Option`.
-/

namespace WikiCategories

/-! ## Binary codec (src/categories/process_categories.py lines 25-61) -/

/-- Big-endian 4-byte encoding of a machine word, the bytes of
`struct.pack` with format `>I` (values are uint32 in the source). -/
def be4 (v : Nat) : List Nat :=
  [v / 16777216 % 256, v / 65536 % 256, v / 256 % 256, v % 256]

/-- Embedding of `_bytes_from_uint32`: concatenation of the 4-byte
big-endian encodings of the values. -/
def bytes_from_uint32 (vals : List Nat) : List Nat :=
  vals.flatMap be4

/-- Embedding of `_serialize_fields`: each field is preceded by its
4-byte big-endian byte length. -/
def serialize_fields (fields : List (List Nat)) : List Nat :=
  fields.flatMap (fun x => be4 x.length ++ x)

/-- Embedding of Python `sep.join(parts)` for byte strings. -/
def pyJoin (sep : List Nat) : List (List Nat) → List Nat
  | [] => []
  | x :: xs => x ++ xs.flatMap (fun y => sep ++ y)

/-- UTF-8 bytes of a string, the embedding of Python `str.encode()`. -/
def utf8Bytes (s : String) : List Nat :=
  s.toUTF8.data.toList.map (fun b => b.toNat)

/-- Embedding of `_serialize_category`. -/
def serialize_category (name : String) (predecessors successors articles : List Nat)
    (article_names : List String) : List Nat :=
  serialize_fields
    [utf8Bytes name,
     bytes_from_uint32 predecessors,
     bytes_from_uint32 successors,
     bytes_from_uint32 articles,
     pyJoin [0] (article_names.map utf8Bytes)]

/-- A field as laid out in the documented record format: a 4-byte
big-endian byte-length prefix followed by the field bytes. -/
def lengthPrefixed (b : List Nat) : List Nat :=
  be4 b.length ++ b

/-! ## Data model (parse records and `_CategoryTreeData`) -/

/-- A page record as consumed by the pipeline: namespace 0 is an
article, namespace 14 a category. -/
structure Page where
  page_id : Nat
  page_namespace : Nat
  name : String
deriving DecidableEq

/-- Embedding of `Page.is_article` (`page_namespace == 0`). -/
def Page.is_article (p : Page) : Bool :=
  p.page_namespace == 0

/-- A category-link record as consumed by `_get_category_tree_data`:
the source category name, the target id, and whether the link attaches
a member article (as opposed to a subcategory). -/
structure CategoryLink where
  parent_name : String
  child_id : Nat
  is_article : Bool
deriving DecidableEq

/-- Python-dict insertion: overwrite in place when the key exists,
append otherwise. -/
def dictInsert (m : List (Nat × String)) (k : Nat) (v : String) : List (Nat × String) :=
  if m.any (fun kv => kv.1 == k) then
    m.map (fun kv => if kv.1 == k then (k, v) else kv)
  else
    m ++ [(k, v)]

/-- Python-dict lookup by key. -/
def dictLookup (m : List (Nat × String)) (k : Nat) : Option String :=
  (m.find? (fun kv => kv.1 == k)).map (fun kv => kv.2)

/-- Embedding of `_CategoryTreeData`.  The defaultdict
`category_to_articles` is modelled as a total function returning the
article list of a category (empty for absent keys, exactly the
defaultdict semantics used by every reader in the source). -/
structure CategoryTreeData where
  article_id_to_name : List (Nat × String)
  category_id_to_name : List (Nat × String)
  category_edges : List (Nat × Nat)
  category_to_articles : Nat → List Nat

/-- First loop of `_get_category_tree_data`: partition pages into the
article and category id-to-name maps. -/
def buildPageMaps (pages : List Page) : List (Nat × String) × List (Nat × String) :=
  pages.foldl
    (fun maps p =>
      if p.is_article then (dictInsert maps.1 p.page_id p.name, maps.2)
      else (maps.1, dictInsert maps.2 p.page_id p.name))
    ([], [])

/-- The inverse lookup built by `_get_category_tree_data`:
`name_to_id = {v: k for k, v in category_id_to_name.items()}`, so on
duplicate names the later entry wins. -/
def nameToId (cm : List (Nat × String)) (name : String) : Option Nat :=
  (cm.reverse.find? (fun kv => kv.2 == name)).map (fun kv => kv.1)

/-- One iteration of the link loop of `_get_category_tree_data`,
acting on the accumulated edge list and article multimap. -/
def linkStep (am cm : List (Nat × String))
    (d : List (Nat × Nat) × (Nat → List Nat)) (link : CategoryLink) :
    List (Nat × Nat) × (Nat → List Nat) :=
  match nameToId cm link.parent_name with
  | none => d
  | some parent_id =>
    if link.is_article then
      match dictLookup am link.child_id with
      | none => d
      | some _ =>
        (d.1, fun c => if c == parent_id then d.2 c ++ [link.child_id] else d.2 c)
    else
      if (dictLookup cm link.child_id).isSome then
        (d.1 ++ [(parent_id, link.child_id)], d.2)
      else d

/-- Embedding of `_get_category_tree_data`. -/
def get_category_tree_data (pages : List Page) (links : List CategoryLink) :
    CategoryTreeData :=
  let maps := buildPageMaps pages
  let res := links.foldl (linkStep maps.1 maps.2) ([], fun _ => [])
  { article_id_to_name := maps.1
    category_id_to_name := maps.2
    category_edges := res.1
    category_to_articles := res.2 }

/-- An edge is justified when some subcategory link produced it: its
source name resolves to the parent id and its target id is a key of
the category map. -/
def edgeJustified (links : List CategoryLink) (cm : List (Nat × String))
    (e : Nat × Nat) : Prop :=
  ∃ l ∈ links, l.is_article = false ∧ nameToId cm l.parent_name = some e.1 ∧
    l.child_id = e.2 ∧ (dictLookup cm e.2).isSome

/-- An article membership is justified when some member-article link
produced it: its source name resolves to the category id and its
target id is a key of the article map. -/
def artJustified (links : List CategoryLink) (am cm : List (Nat × String))
    (cat a : Nat) : Prop :=
  ∃ l ∈ links, l.is_article = true ∧ nameToId cm l.parent_name = some cat ∧
    l.child_id = a ∧ (dictLookup am a).isSome

/-! ## Category graph (networkx `DiGraph` as used by the source) -/

/-- A directed graph with insertion-ordered node and edge lists,
mirroring the parts of `networkx.DiGraph` the source uses. -/
structure DiGraph where
  nodes : List Nat
  edges : List (Nat × Nat)
deriving DecidableEq

def DiGraph.addNode (g : DiGraph) (n : Nat) : DiGraph :=
  if n ∈ g.nodes then g else { g with nodes := g.nodes ++ [n] }

def DiGraph.addEdge (g : DiGraph) (e : Nat × Nat) : DiGraph :=
  let g1 := (g.addNode e.1).addNode e.2
  if e ∈ g1.edges then g1 else { g1 with edges := g1.edges ++ [e] }

def DiGraph.addEdgesFrom (g : DiGraph) (es : List (Nat × Nat)) : DiGraph :=
  es.foldl DiGraph.addEdge g

/-- Embedding of `_build_category_graph`. -/
def build_category_graph (data : CategoryTreeData) : DiGraph :=
  DiGraph.addEdgesFrom ⟨[], []⟩ data.category_edges

def DiGraph.successors (g : DiGraph) (n : Nat) : List Nat :=
  (g.edges.filter (fun e => e.1 == n)).map (fun e => e.2)

def DiGraph.predecessors (g : DiGraph) (n : Nat) : List Nat :=
  (g.edges.filter (fun e => e.2 == n)).map (fun e => e.1)

/-- Embedding of `remove_nodes_from`: drops the listed nodes and every
incident edge; absent ids are a no-op. -/
def DiGraph.removeNodes (g : DiGraph) (s : List Nat) : DiGraph :=
  { nodes := g.nodes.filter (fun n => !(s.contains n))
    edges := g.edges.filter (fun e => !(s.contains e.1) && !(s.contains e.2)) }

/-- Undirected neighbors of a node, as in `G.to_undirected()`. -/
def DiGraph.neighborsU (g : DiGraph) (n : Nat) : List Nat :=
  g.successors n ++ g.predecessors n

def DiGraph.closureStep (g : DiGraph) (s : List Nat) : List Nat :=
  (s ++ s.flatMap g.neighborsU).dedup

def DiGraph.closureN (g : DiGraph) : Nat → List Nat → List Nat
  | 0, s => s
  | k + 1, s => g.closureN k (g.closureStep s)

/-- The weakly-connected component containing a node, computed as a
bounded reachability closure (the node count bounds the diameter). -/
def DiGraph.componentOf (g : DiGraph) (n : Nat) : List Nat :=
  g.closureN g.nodes.length [n]

/-- Weakly-connected components in order of first node occurrence, as
`networkx.connected_components` yields them. -/
def DiGraph.componentsList (g : DiGraph) : List (List Nat) :=
  (g.nodes.foldl
    (fun acc n =>
      if n ∈ acc.2 then acc
      else (acc.1 ++ [g.componentOf n], acc.2 ++ g.componentOf n))
    (([], []) : List (List Nat) × List Nat)).1

/-- Python `max(components, key=len)`: first maximum wins; raises
(returns `none`) on an empty sequence. -/
def maxByLen : List (List Nat) → Option (List Nat)
  | [] => none
  | c :: cs => some (cs.foldl (fun best x => if x.length > best.length then x else best) c)

/-- Embedding of `_keep_largest_graph_component`.  On an empty graph
`max` over zero components raises `ValueError`, modelled as `none`. -/
def keep_largest_graph_component (g : DiGraph) : Option DiGraph :=
  match maxByLen g.componentsList with
  | none => none
  | some comp => some (g.removeNodes (g.nodes.filter (fun n => !(comp.contains n))))

/-! ## Configuration (src/categories/config.py `RunConfig`) -/

/-- The configuration fields consumed by the pipeline core. -/
structure RunConfig where
  excluded_parents : List Nat
  excluded_grandparents : List Nat
  excluded_article_categories : List Nat
  max_articles_per_category : Int
  balancing_mod_operand : Nat
  article_count_percentile : Nat

/-! ## Exclusion and pruning engine -/

/-- The excluded-category accumulation of `_get_excluded` (lines
258-274).  The source collects into a Python set; the model keeps the
accumulation list (possibly with duplicates), which is
membership-equivalent for every downstream use (node removal). -/
def get_excluded_categories (cfg : RunConfig) (g : DiGraph) : List Nat :=
  (cfg.excluded_parents ++ cfg.excluded_grandparents ++ cfg.excluded_article_categories)
  ++ cfg.excluded_parents.flatMap
      (fun e => if e ∈ g.nodes then g.successors e else [])
  ++ cfg.excluded_grandparents.flatMap
      (fun gp =>
        if gp ∈ g.nodes then
          (g.successors gp).flatMap (fun child => child :: g.successors child)
        else [])

/-- The excluded-article accumulation of `_get_excluded` (lines
276-279), collected from the original (pre-removal) article lists. -/
def get_excluded_articles (cfg : RunConfig) (data : CategoryTreeData) : List Nat :=
  cfg.excluded_article_categories.flatMap data.category_to_articles

/-- Embedding of `_remove_articles`: filter the excluded ids out of
every category's article list. -/
def remove_articles (data : CategoryTreeData) (excluded : List Nat) : CategoryTreeData :=
  { data with
    category_to_articles := fun c =>
      (data.category_to_articles c).filter (fun a => !(excluded.contains a)) }

/-- The tree data after `_get_excluded` and `_remove_articles` have
run, as seen by every later stage. -/
def dataAfterExclusion (cfg : RunConfig) (data : CategoryTreeData) : CategoryTreeData :=
  remove_articles data (get_excluded_articles cfg data)

/-- The counts in nondecreasing order, as `np.percentile` sorts its
input (the sorted list of naturals is unique, so any sort agrees). -/
def sortedCounts (counts : List Nat) : List Nat :=
  counts.insertionSort (· ≤ ·)

/-- Linear-interpolation percentile of `np.percentile`, floored by
`int(...)` as in `_get_article_count_percentile`, in exact arithmetic:
with `s` the sorted counts, position `q*(len-1)/100`, the result
interpolates between the neighbouring order statistics.  `none` models
the numpy exceptions: empty input or a percentile above 100. -/
def percentileFloor (counts : List Nat) (q : Nat) : Option Nat :=
  if counts.isEmpty ∨ 100 < q then none
  else
    let s := sortedCounts counts
    let pos := q * (s.length - 1)
    let i := pos / 100
    let r := pos % 100
    let a := s.getD i 0
    let b := s.getD (i + 1) a
    some (a + r * (b - a) / 100)

/-- The interpolation position of the standard percentile definition,
`q/100 * (len - 1)`, as an exact rational. -/
def lpPos (counts : List Nat) (q : Nat) : ℚ :=
  (q : ℚ) * (((sortedCounts counts).length - 1 : ℕ) : ℚ) / 100

/-- Modelled from the spec: the standard linear-interpolation
percentile over the sorted multiset, as an exact rational — with
`i = floor(pos)`, the value is `s[i] + (pos - i) * (s[i+1] - s[i])`
(the upper order statistic defaulting to `s[i]` at the top edge, where
the fractional part is zero). -/
def linearPercentile (counts : List Nat) (q : Nat) : ℚ :=
  (((sortedCounts counts).getD ⌊lpPos counts q⌋₊ 0 : ℕ) : ℚ) +
    (lpPos counts q - (⌊lpPos counts q⌋₊ : ℚ)) *
      ((((sortedCounts counts).getD (⌊lpPos counts q⌋₊ + 1)
          ((sortedCounts counts).getD ⌊lpPos counts q⌋₊ 0) : ℕ) : ℚ) -
        (((sortedCounts counts).getD ⌊lpPos counts q⌋₊ 0 : ℕ) : ℚ))

/-- The article counts of the nodes currently in the graph (line 310). -/
def articleCounts (g : DiGraph) (data : CategoryTreeData) : List Nat :=
  g.nodes.map (fun n => (data.category_to_articles n).length)

/-- Embedding of `_get_article_count_percentile`. -/
def get_article_count_percentile (g : DiGraph) (cfg : RunConfig)
    (data : CategoryTreeData) : Option Nat :=
  percentileFloor (articleCounts g data) cfg.article_count_percentile

/-- Embedding of `_remove_small_categories`: removes every node whose
article count is strictly below the percentile threshold plus one.
`none` models the numpy exception on an empty graph. -/
def remove_small_categories (g : DiGraph) (cfg : RunConfig)
    (data : CategoryTreeData) : Option DiGraph :=
  match get_article_count_percentile g cfg data with
  | none => none
  | some p =>
    some (g.removeNodes
      (g.nodes.filter (fun n => (data.category_to_articles n).length < p + 1)))

/-- The pruning stages of `process_categories` in source order:
build the graph, apply configured exclusions, remove statistically
small categories, keep the largest weak component.  `none` models an
uncaught exception in a stage. -/
def prunePipeline (cfg : RunConfig) (data : CategoryTreeData) : Option DiGraph :=
  let g0 := build_category_graph data
  let g1 := g0.removeNodes (get_excluded_categories cfg g0)
  match remove_small_categories g1 cfg (dataAfterExclusion cfg data) with
  | none => none
  | some g2 => keep_largest_graph_component g2

/-! ## Sharded export writer (`_process_and_write_categories`) -/

/-- The article list the export stage serializes for one category:
the category's (post-exclusion) articles filtered to ids resolving in
`article_id_to_name`, then sampled down when the configured maximum is
exceeded.  `sample` stands for `random.sample` at a fixed seed: an
arbitrary function producing a size-capped selection from its input. -/
def exportedArticlesOf (cfg : RunConfig) (data : CategoryTreeData)
    (sample : List Nat → Nat → List Nat) (c : Nat) : List Nat :=
  let arts := (data.category_to_articles c).filter
    (fun a => (dictLookup data.article_id_to_name a).isSome)
  if cfg.max_articles_per_category ≠ -1 ∧
      cfg.max_articles_per_category < (arts.length : Int) then
    sample arts cfg.max_articles_per_category.toNat
  else arts

/-- The serialized record bytes the export stage produces for one
category, per the generator `get_files_contents` (lines 362-387). -/
def categoryRecordBytes (cfg : RunConfig) (g : DiGraph) (data : CategoryTreeData)
    (sample : List Nat → Nat → List Nat) (c : Nat) : List Nat :=
  let arts := exportedArticlesOf cfg data sample c
  serialize_category
    ((dictLookup data.category_id_to_name c).getD "")
    (g.predecessors c)
    (g.successors c)
    arts
    (arts.map (fun a => (dictLookup data.article_id_to_name a).getD ""))

/-- The ordered list of file writes the export stage performs: for each
surviving category, the path (shard id, category id) and the record
bytes.  Paths are `dest/(c mod balancing_mod_operand)/c.category`. -/
def get_files_contents (cfg : RunConfig) (g : DiGraph) (data : CategoryTreeData)
    (sample : List Nat → Nat → List Nat) : List ((Nat × Nat) × List Nat) :=
  g.nodes.map (fun c =>
    ((c % cfg.balancing_mod_operand, c), categoryRecordBytes cfg g data sample c))

/-- One file write on top of a filesystem state. -/
def writeStep (fs : Nat × Nat → Option (List Nat)) (w : (Nat × Nat) × List Nat) :
    Nat × Nat → Option (List Nat) :=
  fun p => if p = w.1 then some w.2 else fs p

/-- Applying a schedule of file writes to an initially empty
filesystem, later writes overwriting earlier ones at the same path. -/
def applyWrites (ws : List ((Nat × Nat) × List Nat)) : Nat × Nat → Option (List Nat) :=
  ws.foldl writeStep (fun _ => none)

/-! ## Directory index files (`_dir_list_content`, `_write_dir_indices`) -/

/-- Base-10 digits of a natural number, least significant first,
computed with structural recursion on a fuel bound. -/
def digitsRev : Nat → Nat → List Nat
  | 0, _ => []
  | fuel + 1, n => if n = 0 then [] else n % 10 :: digitsRev fuel (n / 10)

/-- Base-10 character string of a natural number, the name Python
`str(n)` gives to shard directories and category files. -/
def natChars (n : Nat) : List Char :=
  if n = 0 then ['0']
  else (digitsRev n n).reverse.map (fun d => Char.ofNat (48 + d))

/-- Python `name.split(".")[0]`: the characters before the first dot. -/
def stemOf (cs : List Char) : List Char :=
  cs.takeWhile (fun c => c ≠ '.')

/-- Python `str.isdigit` restricted to ASCII names: nonempty and all
decimal digits. -/
def pyIsDigit (cs : List Char) : Bool :=
  !cs.isEmpty && cs.all Char.isDigit

/-- Python `int(s)` on a digit string. -/
def charsVal (cs : List Char) : Nat :=
  cs.foldl (fun acc c => 10 * acc + (c.toNat - 48)) 0

/-- The integer entries `_dir_list_content` collects from a directory
listing: entries with a digit-only stem, parsed as integers. -/
def dirListIds (entries : List (List Char)) : List Nat :=
  entries.filterMap (fun e =>
    let s := stemOf e
    if pyIsDigit s then some (charsVal s) else none)

/-- Embedding of `_dir_list_content`: the ids packed as flat 4-byte
big-endian words. -/
def dir_list_content (entries : List (List Char)) : List Nat :=
  bytes_from_uint32 (dirListIds entries)

/-- The destination-root directory entries at the moment the root
`dir_list.index` is computed: exactly the unconditionally pre-created
shard directories `0 .. balancing_mod_operand - 1` (lines 350-353),
named by Python `str`. -/
def rootEntries (cfg : RunConfig) : List (List Char) :=
  (List.range cfg.balancing_mod_operand).map natChars

/-- The entries of one shard directory after the export: one
`<categoryId>.category` file per surviving category assigned there. -/
def shardEntries (cfg : RunConfig) (g : DiGraph) (shard : Nat) : List (List Char) :=
  (g.nodes.filter (fun c => c % cfg.balancing_mod_operand == shard)).map
    (fun c => natChars c ++ ".category".toList)

/-! ## Concrete scenarios from the spec's testable properties -/

/-- Scenario pages: categories A (id 1) and B (id 2), five articles
with ids 10 to 14. -/
def pagesS : List Page :=
  [⟨1, 14, "A"⟩, ⟨2, 14, "B"⟩,
   ⟨10, 0, "a0"⟩, ⟨11, 0, "a1"⟩, ⟨12, 0, "a2"⟩, ⟨13, 0, "a3"⟩, ⟨14, 0, "a4"⟩]

/-- Scenario links: A is the parent of B; the five articles are
members of B. -/
def linksS : List CategoryLink :=
  [⟨"A", 2, false⟩,
   ⟨"B", 10, true⟩, ⟨"B", 11, true⟩, ⟨"B", 12, true⟩,
   ⟨"B", 13, true⟩, ⟨"B", 14, true⟩]

/-- Scenario config: no exclusions, default article cap 1000,
`balancing_mod_operand = 10`, `article_count_percentile = 0`. -/
def cfgS : RunConfig := ⟨[], [], [], 1000, 10, 0⟩

def dataS : CategoryTreeData := get_category_tree_data pagesS linksS

/-- Config whose parent exclusion empties the two-category graph. -/
def cfgE : RunConfig := ⟨[1], [], [], 1000, 10, 0⟩

def pagesE : List Page := [⟨1, 14, "A"⟩, ⟨2, 14, "B"⟩]

def linksE : List CategoryLink := [⟨"A", 2, false⟩]

def dataE : CategoryTreeData := get_category_tree_data pagesE linksE

/-! ## Helper lemmas -/

theorem pyJoin_cons_eq (sep : List Nat) :
    ∀ (xs : List (List Nat)) (x : List Nat),
      List.intercalate sep (x :: xs) = x ++ xs.flatMap (fun y => sep ++ y)
  | [], x => by simp [List.intercalate, List.intersperse]
  | y :: ys, x => by
    have ih := pyJoin_cons_eq sep ys y
    simp only [List.intercalate, List.intersperse] at ih ⊢
    simp only [List.flatten_cons, List.flatMap_cons, ih, List.append_assoc]

theorem pyJoin_eq_intercalate (sep : List Nat) (xs : List (List Nat)) :
    pyJoin sep xs = List.intercalate sep xs := by
  cases xs with
  | nil => simp [pyJoin, List.intercalate, List.intersperse]
  | cons x xs => rw [pyJoin, pyJoin_cons_eq]

/-- C1: for every category record produced by the export stage, the
serialized bytes are the concatenation, in order, of the five fields
each preceded by its 4-byte big-endian byte-length prefix: the UTF-8
name, the predecessor ids as 4-byte big-endian words, the successor
ids likewise, the article ids likewise, and the UTF-8 article names
(one per article id, in the order of the article-id field) joined by a
single 0x00 byte with no per-name prefix and no trailing separator. -/
theorem category_record_layout (cfg : RunConfig) (g : DiGraph) (data : CategoryTreeData)
    (sample : List Nat → Nat → List Nat) (c : Nat) :
    categoryRecordBytes cfg g data sample c =
      lengthPrefixed (utf8Bytes ((dictLookup data.category_id_to_name c).getD "")) ++
      lengthPrefixed ((g.predecessors c).flatMap be4) ++
      lengthPrefixed ((g.successors c).flatMap be4) ++
      lengthPrefixed ((exportedArticlesOf cfg data sample c).flatMap be4) ++
      lengthPrefixed (List.intercalate [0]
        ((exportedArticlesOf cfg data sample c).map
          (fun a => utf8Bytes ((dictLookup data.article_id_to_name a).getD "")))) := by
  simp only [categoryRecordBytes, serialize_category, serialize_fields, bytes_from_uint32,
    lengthPrefixed, pyJoin_eq_intercalate, List.map_map, Function.comp_def,
    List.flatMap_cons, List.flatMap_nil, List.append_nil, List.append_assoc]

theorem mem_if_nil {c : Prop} [Decidable c] {l : List Nat} {x : Nat} :
    x ∈ (if c then l else []) ↔ c ∧ x ∈ l := by
  split <;> simp [*]

/-- C2: membership in the excluded-category set computed by
`_get_excluded` is exactly: one of the three configured exclusion
lists, or a direct successor of an `excluded_parents` id present in
the graph, or a successor or successor-of-successor of an
`excluded_grandparents` id present in the graph.  An exclusion id not
in the graph contributes no successors (and the computation is total,
so no error is raised). -/
theorem excluded_categories_spec (cfg : RunConfig) (g : DiGraph) (x : Nat) :
    x ∈ get_excluded_categories cfg g ↔
      (x ∈ cfg.excluded_parents ∨ x ∈ cfg.excluded_grandparents ∨
       x ∈ cfg.excluded_article_categories ∨
       (∃ e ∈ cfg.excluded_parents, e ∈ g.nodes ∧ x ∈ g.successors e) ∨
       (∃ gp ∈ cfg.excluded_grandparents, gp ∈ g.nodes ∧
         (x ∈ g.successors gp ∨ ∃ child ∈ g.successors gp, x ∈ g.successors child))) := by
  simp only [get_excluded_categories, List.mem_append, List.mem_flatMap, mem_if_nil,
    List.mem_cons]
  constructor
  · rintro ((((h | h) | h) | ⟨e, he, hg, hx⟩) | ⟨gp, hgp, hg, child, hchild, hx⟩)
    · exact Or.inl h
    · exact Or.inr (Or.inl h)
    · exact Or.inr (Or.inr (Or.inl h))
    · exact Or.inr (Or.inr (Or.inr (Or.inl ⟨e, he, hg, hx⟩)))
    · rcases hx with rfl | hx
      · exact Or.inr (Or.inr (Or.inr (Or.inr ⟨gp, hgp, hg, Or.inl hchild⟩)))
      · exact Or.inr (Or.inr (Or.inr (Or.inr ⟨gp, hgp, hg, Or.inr ⟨child, hchild, hx⟩⟩)))
  · rintro (h | h | h | ⟨e, he, hg, hx⟩ | ⟨gp, hgp, hg, hx | ⟨child, hchild, hx⟩⟩)
    · exact Or.inl (Or.inl (Or.inl (Or.inl h)))
    · exact Or.inl (Or.inl (Or.inl (Or.inr h)))
    · exact Or.inl (Or.inl (Or.inr h))
    · exact Or.inl (Or.inr ⟨e, he, hg, hx⟩)
    · exact Or.inr ⟨gp, hgp, hg, x, hx, Or.inl rfl⟩
    · exact Or.inr ⟨gp, hgp, hg, child, hchild, Or.inr hx⟩

/-! ## Tree assembler invariants -/

theorem linkStep_inv (am cm : List (Nat × String)) (L : List CategoryLink) :
    ∀ (ls : List CategoryLink) (d : List (Nat × Nat) × (Nat → List Nat)),
      (∀ l ∈ ls, l ∈ L) →
      (∀ e ∈ d.1, edgeJustified L cm e) →
      (∀ cat a, a ∈ d.2 cat → artJustified L am cm cat a) →
      (∀ e ∈ (ls.foldl (linkStep am cm) d).1, edgeJustified L cm e) ∧
      (∀ cat a, a ∈ (ls.foldl (linkStep am cm) d).2 cat → artJustified L am cm cat a)
  | [], d, _, he, ha => ⟨he, ha⟩
  | l :: ls, d, hmem, he, ha => by
    rw [List.foldl_cons]
    have hl : l ∈ L := hmem l (List.mem_cons_self l ls)
    have hmem' : ∀ l' ∈ ls, l' ∈ L := fun l' h => hmem l' (List.mem_cons_of_mem l h)
    refine linkStep_inv am cm L ls (linkStep am cm d l) hmem' ?_ ?_
    · intro e hee
      unfold linkStep at hee
      split at hee
      · exact he e hee
      · rename_i pid hpn
        split at hee
        · rename_i hart
          split at hee
          · exact he e hee
          · exact he e hee
        · rename_i hart
          split at hee
          · rename_i hcl
            rcases List.mem_append.mp hee with hee | hee
            · exact he e hee
            · rcases List.mem_singleton.mp hee with rfl
              exact ⟨l, hl, Bool.eq_false_iff.mpr hart, hpn, rfl, hcl⟩
          · exact he e hee
    · intro cat a haa
      unfold linkStep at haa
      split at haa
      · exact ha cat a haa
      · rename_i pid hpn
        split at haa
        · rename_i hart
          split at haa
          · exact ha cat a haa
          · rename_i v hal
            simp only at haa
            by_cases hcat : (cat == pid) = true
            · rw [if_pos hcat] at haa
              rcases List.mem_append.mp haa with haa | haa
              · exact ha cat a haa
              · rcases List.mem_singleton.mp haa with rfl
                have hs : (dictLookup am l.child_id).isSome := by rw [hal]; rfl
                exact ⟨l, hl, hart, by rw [hpn, eq_of_beq hcat], rfl, hs⟩
            · rw [if_neg hcat] at haa; exact ha cat a haa
        · rename_i hart
          split at haa
          · exact ha cat a haa
          · exact ha cat a haa

/-- A resolved category name is a key of the category map. -/
theorem nameToId_some_key (cm : List (Nat × String)) (name : String) (k : Nat)
    (h : nameToId cm name = some k) : (dictLookup cm k).isSome := by
  unfold nameToId at h
  cases hf : cm.reverse.find? (fun kv => kv.2 == name) with
  | none => rw [hf] at h; exact absurd h (by simp)
  | some kv =>
    rw [hf] at h
    have hkm : kv ∈ cm := List.mem_reverse.mp (List.mem_of_find?_eq_some hf)
    have hk : kv.1 = k := by simpa using h
    have hfs : (cm.find? (fun kv => kv.1 == k)).isSome :=
      List.find?_isSome.mpr ⟨kv, hkm, by simp [hk]⟩
    obtain ⟨y, hy⟩ := Option.isSome_iff_exists.mp hfs
    unfold dictLookup
    rw [hy]
    rfl

/-- C8: the Tree Assembler records an edge only for a subcategory link
whose source name resolves to a known category id and whose target id
is a key of the category map, and records an article membership only
for a member-article link whose source name resolves and whose target
id is a key of the article map; links failing the checks are dropped
by a total computation that raises no error. -/
theorem tree_assembler_link_checks (pages : List Page) (links : List CategoryLink) :
    (∀ e ∈ (get_category_tree_data pages links).category_edges,
      edgeJustified links (get_category_tree_data pages links).category_id_to_name e) ∧
    (∀ cat a, a ∈ (get_category_tree_data pages links).category_to_articles cat →
      artJustified links (get_category_tree_data pages links).article_id_to_name
        (get_category_tree_data pages links).category_id_to_name cat a) := by
  exact linkStep_inv (buildPageMaps pages).1 (buildPageMaps pages).2 links links
    (([], fun _ => []) : List (Nat × Nat) × (Nat → List Nat))
    (fun _ h => h)
    (fun e hee => absurd hee (List.not_mem_nil e))
    (fun _ a haa => absurd haa (List.not_mem_nil a))

/-! ## Graph construction and pruning lemmas -/

theorem mem_addNode {g : DiGraph} {m n : Nat} :
    n ∈ (g.addNode m).nodes ↔ n ∈ g.nodes ∨ n = m := by
  unfold DiGraph.addNode
  split
  · rename_i hm
    constructor
    · exact Or.inl
    · rintro (h | rfl)
      · exact h
      · exact hm
  · simp [List.mem_append]

theorem addEdge_nodes_eq (g : DiGraph) (e : Nat × Nat) :
    (g.addEdge e).nodes = ((g.addNode e.1).addNode e.2).nodes := by
  unfold DiGraph.addEdge
  dsimp only
  split <;> rfl

theorem mem_addEdgesFrom :
    ∀ (es : List (Nat × Nat)) (g : DiGraph) (n : Nat),
      n ∈ (g.addEdgesFrom es).nodes → n ∈ g.nodes ∨ ∃ e ∈ es, n = e.1 ∨ n = e.2
  | [], g, n, h => Or.inl h
  | e :: es, g, n, h => by
    rw [DiGraph.addEdgesFrom, List.foldl_cons] at h
    rcases mem_addEdgesFrom es (g.addEdge e) n h with h1 | ⟨e', he', h2⟩
    · rw [addEdge_nodes_eq] at h1
      rcases mem_addNode.mp h1 with h2 | rfl
      · rcases mem_addNode.mp h2 with h3 | rfl
        · exact Or.inl h3
        · exact Or.inr ⟨e, List.mem_cons_self e es, Or.inl rfl⟩
      · exact Or.inr ⟨e, List.mem_cons_self e es, Or.inr rfl⟩
    · exact Or.inr ⟨e', List.mem_cons_of_mem e he', h2⟩

theorem build_category_graph_nodes (data : CategoryTreeData) (n : Nat)
    (h : n ∈ (build_category_graph data).nodes) :
    ∃ e ∈ data.category_edges, n = e.1 ∨ n = e.2 := by
  rcases mem_addEdgesFrom data.category_edges ⟨[], []⟩ n h with h1 | h1
  · exact absurd h1 (List.not_mem_nil n)
  · exact h1

theorem mem_removeNodes {g : DiGraph} {s : List Nat} {n : Nat} :
    n ∈ (g.removeNodes s).nodes ↔ n ∈ g.nodes ∧ n ∉ s := by
  simp [DiGraph.removeNodes, List.mem_filter]

theorem remove_small_categories_sub {g g' : DiGraph} {cfg : RunConfig}
    {data : CategoryTreeData} (h : remove_small_categories g cfg data = some g') :
    ∀ n ∈ g'.nodes, n ∈ g.nodes := by
  unfold remove_small_categories at h
  split at h
  · exact absurd h (by simp)
  · rcases Option.some_inj.mp h with rfl
    exact fun n hn => (mem_removeNodes.mp hn).1

theorem keep_largest_sub {g g' : DiGraph}
    (h : keep_largest_graph_component g = some g') : ∀ n ∈ g'.nodes, n ∈ g.nodes := by
  unfold keep_largest_graph_component at h
  split at h
  · exact absurd h (by simp)
  · rcases Option.some_inj.mp h with rfl
    exact fun n hn => (mem_removeNodes.mp hn).1

theorem prunePipeline_nodes_sub {cfg : RunConfig} {data : CategoryTreeData} {g : DiGraph}
    (h : prunePipeline cfg data = some g) :
    ∀ n ∈ g.nodes, n ∈ (build_category_graph data).nodes := by
  unfold prunePipeline at h
  dsimp only at h
  split at h
  · exact absurd h (by simp)
  · rename_i g2 h2
    intro n hn
    have h3 := keep_largest_sub h n hn
    have h4 := remove_small_categories_sub h2 n h3
    exact (mem_removeNodes.mp h4).1

/-- Every endpoint of a recorded category edge is a key of the
category id-to-name map. -/
theorem category_edges_keys (pages : List Page) (links : List CategoryLink) :
    ∀ e ∈ (get_category_tree_data pages links).category_edges,
      (dictLookup (get_category_tree_data pages links).category_id_to_name e.1).isSome ∧
      (dictLookup (get_category_tree_data pages links).category_id_to_name e.2).isSome := by
  intro e he
  have hinv := linkStep_inv (buildPageMaps pages).1 (buildPageMaps pages).2 links links
    (([], fun _ => []) : List (Nat × Nat) × (Nat → List Nat))
    (fun _ h => h)
    (fun e hee => absurd hee (List.not_mem_nil e))
    (fun _ a haa => absurd haa (List.not_mem_nil a))
  obtain ⟨l, _, _, hres, _, hkey⟩ := hinv.1 e he
  exact ⟨nameToId_some_key _ _ _ hres, hkey⟩

/-- Everything the export stage keeps of a category's article list is
drawn from the resolvable-id filter pass. -/
theorem exported_sub_filter {cfg : RunConfig} {data : CategoryTreeData}
    {sample : List Nat → Nat → List Nat} {c a : Nat}
    (hsample : ∀ xs k, ∀ x ∈ sample xs k, x ∈ xs)
    (ha : a ∈ exportedArticlesOf cfg data sample c) :
    a ∈ (data.category_to_articles c).filter
      (fun a => (dictLookup data.article_id_to_name a).isSome) := by
  unfold exportedArticlesOf at ha
  dsimp only at ha
  split at ha
  · exact hsample _ _ a ha
  · exact ha

/-- C10: on any successfully pruned run, every category id in the
final graph is a key of the category id-to-name map (graph nodes only
ever come from edges whose endpoints were checked during assembly, and
pruning only removes nodes), and every article id surviving the
export-time filter is a key of the article id-to-name map, so neither
export-stage lookup can fail. -/
theorem export_lookups_never_fail (pages : List Page) (links : List CategoryLink)
    (cfg : RunConfig) (g : DiGraph) (sample : List Nat → Nat → List Nat)
    (hsample : ∀ xs k, ∀ x ∈ sample xs k, x ∈ xs)
    (hg : prunePipeline cfg (get_category_tree_data pages links) = some g)
    (c : Nat) (hc : c ∈ g.nodes) :
    (dictLookup (get_category_tree_data pages links).category_id_to_name c).isSome ∧
    ∀ a ∈ exportedArticlesOf cfg
        (dataAfterExclusion cfg (get_category_tree_data pages links)) sample c,
      (dictLookup (get_category_tree_data pages links).article_id_to_name a).isSome := by
  constructor
  · have hb := prunePipeline_nodes_sub hg c hc
    obtain ⟨e, he, hend⟩ := build_category_graph_nodes _ c hb
    rcases hend with rfl | rfl
    · exact (category_edges_keys pages links e he).1
    · exact (category_edges_keys pages links e he).2
  · intro a ha
    have hf := exported_sub_filter hsample ha
    have := (List.mem_filter.mp hf).2
    simpa using this

/-- C7: every article id the export stage serializes resolves in the
article id-to-name map and is not in the excluded-article set
collected from `excluded_article_categories` (those ids having been
filtered out of every category's article list beforehand). -/
theorem export_articles_resolvable_not_excluded (cfg : RunConfig)
    (data : CategoryTreeData) (sample : List Nat → Nat → List Nat) (c a : Nat)
    (hsample : ∀ xs k, ∀ x ∈ sample xs k, x ∈ xs)
    (ha : a ∈ exportedArticlesOf cfg (dataAfterExclusion cfg data) sample c) :
    (dictLookup data.article_id_to_name a).isSome ∧
    a ∉ get_excluded_articles cfg data := by
  have hf := exported_sub_filter hsample ha
  have hmem := List.mem_filter.mp hf
  have hsome : (dictLookup data.article_id_to_name a).isSome := by
    have := hmem.2
    simpa using this
  have hin : a ∈ ((data.category_to_articles c).filter
      (fun x => !((get_excluded_articles cfg data).contains x))) := hmem.1
  have hnotex := (List.mem_filter.mp hin).2
  refine ⟨hsome, ?_⟩
  simpa using hnotex

/-! ## Percentile lemmas -/

theorem lpPos_eq (counts : List Nat) (q : Nat) :
    lpPos counts q = ((q * ((sortedCounts counts).length - 1) : ℕ) : ℚ) / 100 := by
  unfold lpPos
  push_cast
  ring

theorem floor_lpPos (counts : List Nat) (q : Nat) :
    ⌊lpPos counts q⌋₊ = q * ((sortedCounts counts).length - 1) / 100 := by
  rw [lpPos_eq, show ((100 : ℚ)) = ((100 : ℕ) : ℚ) from by norm_num,
    Nat.floor_div_nat, Nat.floor_natCast]

theorem frac_lpPos (counts : List Nat) (q : Nat) :
    lpPos counts q - (⌊lpPos counts q⌋₊ : ℚ) =
      ((q * ((sortedCounts counts).length - 1)) % 100 : ℕ) / 100 := by
  rw [floor_lpPos, lpPos_eq]
  obtain ⟨d, m, hdm, hd, hm⟩ :
      ∃ d m, 100 * d + m = q * ((sortedCounts counts).length - 1) ∧
        q * ((sortedCounts counts).length - 1) / 100 = d ∧
        q * ((sortedCounts counts).length - 1) % 100 = m :=
    ⟨_, _, Nat.div_add_mod _ 100, rfl, rfl⟩
  rw [hd, hm, ← hdm]
  push_cast
  field_simp

theorem sortedCounts_sorted (counts : List Nat) :
    (sortedCounts counts).Sorted (· ≤ ·) :=
  List.sorted_insertionSort _ counts

theorem sortedCounts_le {counts : List Nat} {i : Nat}
    (h : i + 1 < (sortedCounts counts).length) :
    (sortedCounts counts).getD i 0 ≤
      (sortedCounts counts).getD (i + 1) ((sortedCounts counts).getD i 0) := by
  have hi : i < (sortedCounts counts).length := Nat.lt_of_succ_lt h
  rw [List.getD_eq_getElem _ _ hi, List.getD_eq_getElem _ _ h]
  exact List.Sorted.rel_get_of_lt (sortedCounts_sorted counts) (by simp [Fin.lt_def])

/-- Floor of the interpolation between two naturals at a rational
fraction with denominator 100, as a Nat-division formula. -/
theorem floor_interp (a b r : ℕ) (hab : a ≤ b) :
    ⌊(a : ℚ) + (r : ℚ) / 100 * ((b : ℚ) - (a : ℚ))⌋₊ = a + r * (b - a) / 100 := by
  have h1 : (a : ℚ) + (r : ℚ) / 100 * ((b : ℚ) - (a : ℚ)) =
      ((r * (b - a) : ℕ) : ℚ) / ((100 : ℕ) : ℚ) + (a : ℕ) := by
    rw [Nat.cast_mul, Nat.cast_sub hab]
    push_cast
    ring
  rw [h1, Nat.floor_add_nat (by positivity) a, Nat.floor_div_nat, Nat.floor_natCast,
    Nat.add_comm]

/-- The Nat-division formula computed by the source equals the floor
of the exact rational linear-interpolation percentile. -/
theorem percentileFloor_eq_floor (counts : List Nat) (q : Nat)
    (hne : counts ≠ []) (hq : q ≤ 100) :
    percentileFloor counts q = some ⌊linearPercentile counts q⌋₊ := by
  have hcond : ¬(counts.isEmpty ∨ 100 < q) := by
    simp [List.isEmpty_iff, hne, Nat.not_lt.mpr hq]
  have hab :
      (sortedCounts counts).getD (q * ((sortedCounts counts).length - 1) / 100) 0 ≤
      (sortedCounts counts).getD (q * ((sortedCounts counts).length - 1) / 100 + 1)
        ((sortedCounts counts).getD (q * ((sortedCounts counts).length - 1) / 100) 0) := by
    by_cases h1 : q * ((sortedCounts counts).length - 1) / 100 + 1 < (sortedCounts counts).length
    · exact sortedCounts_le h1
    · rw [List.getD_eq_default _ _ (Nat.le_of_not_lt h1)]
  have hrw : linearPercentile counts q =
      ((sortedCounts counts).getD (q * ((sortedCounts counts).length - 1) / 100) 0 : ℚ) +
      (((q * ((sortedCounts counts).length - 1)) % 100 : ℕ) : ℚ) / 100 *
        (((sortedCounts counts).getD (q * ((sortedCounts counts).length - 1) / 100 + 1)
            ((sortedCounts counts).getD (q * ((sortedCounts counts).length - 1) / 100) 0) : ℚ) -
          ((sortedCounts counts).getD (q * ((sortedCounts counts).length - 1) / 100) 0 : ℚ)) := by
    unfold linearPercentile
    rw [frac_lpPos, floor_lpPos]
  unfold percentileFloor
  rw [if_neg hcond]
  dsimp only
  rw [hrw, floor_interp _ _ _ hab]

theorem articleCounts_ne_nil {g : DiGraph} {data : CategoryTreeData}
    (h : g.nodes ≠ []) : articleCounts g data ≠ [] := by
  simpa [articleCounts] using h

/-- C3: on a non-empty graph, small-category removal computes the
threshold as the floor of the standard linear-interpolation percentile
of the article counts of the nodes currently in the graph, plus one,
and removes exactly the nodes whose article count is strictly below
that threshold. -/
theorem remove_small_categories_spec (g : DiGraph) (cfg : RunConfig)
    (data : CategoryTreeData) (hne : g.nodes ≠ [])
    (hq : cfg.article_count_percentile ≤ 100) :
    ∃ g', remove_small_categories g cfg data = some g' ∧
      ∀ n, n ∈ g'.nodes ↔
        (n ∈ g.nodes ∧
          ¬((data.category_to_articles n).length <
            ⌊linearPercentile (articleCounts g data) cfg.article_count_percentile⌋₊ + 1)) := by
  have hp := percentileFloor_eq_floor (articleCounts g data) cfg.article_count_percentile
    (articleCounts_ne_nil hne) hq
  refine ⟨g.removeNodes (g.nodes.filter (fun n =>
    (data.category_to_articles n).length <
      ⌊linearPercentile (articleCounts g data) cfg.article_count_percentile⌋₊ + 1)), ?_, ?_⟩
  · unfold remove_small_categories get_article_count_percentile
    rw [hp]
  · intro n
    rw [mem_removeNodes]
    simp only [List.mem_filter, decide_eq_true_eq]
    constructor
    · rintro ⟨hn, hsmall⟩
      exact ⟨hn, fun hlt => hsmall ⟨hn, hlt⟩⟩
    · rintro ⟨hn, hge⟩
      exact ⟨hn, fun hmem => hge hmem.2⟩

/-! ## Write-schedule independence lemmas -/

theorem foldl_writeStep_congr :
    ∀ (ws : List ((Nat × Nat) × List Nat)) (f0 f1 : Nat × Nat → Option (List Nat))
      (p : Nat × Nat), f0 p = f1 p →
      ws.foldl writeStep f0 p = ws.foldl writeStep f1 p
  | [], _, _, _, h => h
  | w :: ws, f0, f1, p, h => by
    rw [List.foldl_cons, List.foldl_cons]
    refine foldl_writeStep_congr ws _ _ p ?_
    unfold writeStep
    by_cases hp : p = w.1
    · rw [if_pos hp, if_pos hp]
    · rw [if_neg hp, if_neg hp]
      exact h

theorem foldl_writeStep_absent :
    ∀ (ws : List ((Nat × Nat) × List Nat)) (f0 : Nat × Nat → Option (List Nat))
      (p : Nat × Nat), (∀ w ∈ ws, w.1 ≠ p) →
      ws.foldl writeStep f0 p = f0 p
  | [], _, _, _ => rfl
  | w :: ws, f0, p, h => by
    rw [List.foldl_cons,
      foldl_writeStep_absent ws _ p (fun w' hw' => h w' (List.mem_cons_of_mem w hw'))]
    unfold writeStep
    exact if_neg (fun hp => h w (List.mem_cons_self w ws) hp.symm)

theorem applyWrites_eq_find :
    ∀ (ws : List ((Nat × Nat) × List Nat)), (ws.map Prod.fst).Nodup →
      ∀ p, applyWrites ws p = (ws.find? (fun w => w.1 == p)).map (fun w => w.2)
  | [], _, p => rfl
  | w :: ws, hnd, p => by
    rw [List.map_cons, List.nodup_cons] at hnd
    unfold applyWrites
    rw [List.foldl_cons]
    by_cases hp : p = w.1
    · rw [foldl_writeStep_absent ws (writeStep (fun _ => none) w) p
        (fun w' hw' heq => hnd.1 ((heq.trans hp) ▸ List.mem_map_of_mem Prod.fst hw'))]
      rw [List.find?_cons_of_pos _ (by simp [hp])]
      unfold writeStep
      rw [if_pos hp]
      rfl
    · rw [foldl_writeStep_congr ws _ (fun _ => none) p
        (by unfold writeStep; exact if_neg hp)]
      rw [List.find?_cons_of_neg _ (by simpa using fun h => hp h.symm)]
      exact applyWrites_eq_find ws hnd.2 p

theorem find?_key_eq_of_perm (w1 w2 : List ((Nat × Nat) × List Nat))
    (h : w1.Perm w2) (hnd : (w1.map Prod.fst).Nodup) (p : Nat × Nat) :
    w1.find? (fun w => w.1 == p) = w2.find? (fun w => w.1 == p) := by
  cases h1 : w1.find? (fun w => w.1 == p) with
  | none =>
    have hall := List.find?_eq_none.mp h1
    symm
    exact List.find?_eq_none.mpr (fun x hx => hall x (h.mem_iff.mpr hx))
  | some w =>
    have hw_mem : w ∈ w1 := List.mem_of_find?_eq_some h1
    have hw_pred : (w.1 == p) = true :=
      @List.find?_some _ (fun w => w.1 == p) w w1 h1
    have hsome2 : (w2.find? (fun w => w.1 == p)).isSome :=
      List.find?_isSome.mpr ⟨w, h.mem_iff.mp hw_mem, hw_pred⟩
    obtain ⟨w', hw'⟩ := Option.isSome_iff_exists.mp hsome2
    have hw'_mem : w' ∈ w1 := h.mem_iff.mpr (List.mem_of_find?_eq_some hw')
    have hw'_pred : (w'.1 == p) = true :=
      @List.find?_some _ (fun w => w.1 == p) w' w2 hw'
    have heq : w = w' := List.inj_on_of_nodup_map hnd hw_mem hw'_mem
      (by rw [eq_of_beq hw_pred, eq_of_beq hw'_pred])
    rw [hw', heq]

theorem addNode_nodup {g : DiGraph} {n : Nat} (h : g.nodes.Nodup) :
    (g.addNode n).nodes.Nodup := by
  unfold DiGraph.addNode
  split
  · exact h
  · rename_i hn
    simp only [List.nodup_append, List.nodup_singleton, true_and]
    exact ⟨h, by simpa [List.disjoint_singleton] using hn⟩

theorem addEdge_nodup {g : DiGraph} {e : Nat × Nat} (h : g.nodes.Nodup) :
    (g.addEdge e).nodes.Nodup := by
  rw [show (g.addEdge e).nodes = ((g.addNode e.1).addNode e.2).nodes from
    addEdge_nodes_eq g e]
  exact addNode_nodup (addNode_nodup h)

theorem addEdgesFrom_nodup :
    ∀ (es : List (Nat × Nat)) (g : DiGraph), g.nodes.Nodup →
      (g.addEdgesFrom es).nodes.Nodup
  | [], _, h => h
  | e :: es, g, h => by
    rw [DiGraph.addEdgesFrom, List.foldl_cons]
    exact addEdgesFrom_nodup es (g.addEdge e) (addEdge_nodup h)

theorem removeNodes_nodup {g : DiGraph} {s : List Nat} (h : g.nodes.Nodup) :
    (g.removeNodes s).nodes.Nodup :=
  h.filter _

theorem prunePipeline_nodup {cfg : RunConfig} {data : CategoryTreeData} {g : DiGraph}
    (h : prunePipeline cfg data = some g) : g.nodes.Nodup := by
  unfold prunePipeline at h
  dsimp only at h
  split at h
  · exact absurd h (by simp)
  · rename_i g2 h2
    have hg2 : g2.nodes.Nodup := by
      unfold remove_small_categories at h2
      split at h2
      · exact absurd h2 (by simp)
      · rcases Option.some_inj.mp h2 with rfl
        exact removeNodes_nodup (removeNodes_nodup
          (addEdgesFrom_nodup _ _ List.nodup_nil))
    unfold keep_largest_graph_component at h
    split at h
    · exact absurd h (by simp)
    · rcases Option.some_inj.mp h with rfl
      exact removeNodes_nodup hg2

theorem get_files_contents_keys (cfg : RunConfig) (g : DiGraph)
    (data : CategoryTreeData) (sample : List Nat → Nat → List Nat) :
    (get_files_contents cfg g data sample).map Prod.fst =
      g.nodes.map (fun c => (c % cfg.balancing_mod_operand, c)) := by
  simp [get_files_contents, List.map_map, Function.comp_def]

theorem get_files_contents_keys_nodup {cfg : RunConfig} {g : DiGraph}
    {data : CategoryTreeData} {sample : List Nat → Nat → List Nat}
    (hnd : g.nodes.Nodup) :
    ((get_files_contents cfg g data sample).map Prod.fst).Nodup := by
  rw [get_files_contents_keys]
  exact hnd.map (fun a b hab => congrArg Prod.snd hab)

/-- C9: with identical inputs, identical config and an identical
sampler (the fixed random seed), the export stage's write set is
deterministic: any two write schedules (the worker pool may write in
any order) produce the same final path-to-bytes filesystem, so two
runs yield byte-identical output trees. -/
theorem export_write_schedule_independent (pages : List Page)
    (links : List CategoryLink) (cfg : RunConfig) (g : DiGraph)
    (sample : List Nat → Nat → List Nat) (w1 w2 : List ((Nat × Nat) × List Nat))
    (hg : prunePipeline cfg (get_category_tree_data pages links) = some g)
    (h1 : w1.Perm (get_files_contents cfg g
      (dataAfterExclusion cfg (get_category_tree_data pages links)) sample))
    (h2 : w2.Perm (get_files_contents cfg g
      (dataAfterExclusion cfg (get_category_tree_data pages links)) sample)) :
    applyWrites w1 = applyWrites w2 := by
  have hnd : ((get_files_contents cfg g
      (dataAfterExclusion cfg (get_category_tree_data pages links)) sample).map
        Prod.fst).Nodup :=
    get_files_contents_keys_nodup (prunePipeline_nodup hg)
  have hnd1 : (w1.map Prod.fst).Nodup := ((h1.map Prod.fst).nodup_iff).mpr hnd
  have hnd2 : (w2.map Prod.fst).Nodup := ((h2.map Prod.fst).nodup_iff).mpr hnd
  funext p
  rw [applyWrites_eq_find w1 hnd1 p, applyWrites_eq_find w2 hnd2 p,
    find?_key_eq_of_perm w1 w2 (h1.trans h2.symm) hnd1 p]

/-! ## Directory index lemmas -/

theorem digitsRev_eq_digits : ∀ (fuel n : Nat), n ≤ fuel →
    digitsRev fuel n = Nat.digits 10 n
  | 0, n, h => by
    rw [Nat.le_zero.mp h, Nat.digits_zero]
    rfl
  | fuel + 1, n, h => by
    unfold digitsRev
    by_cases hn : n = 0
    · rw [if_pos hn, hn, Nat.digits_zero]
    · rw [if_neg hn]
      have hlt : n / 10 ≤ fuel := by
        have := Nat.div_lt_self (Nat.pos_of_ne_zero hn) (by norm_num : (1:ℕ) < 10)
        omega
      rw [digitsRev_eq_digits fuel (n / 10) hlt,
        Nat.digits_def' (by norm_num : (1:ℕ) < 10) (Nat.pos_of_ne_zero hn)]

theorem natChars_eq (n : Nat) :
    natChars n = if n = 0 then ['0']
      else (Nat.digits 10 n).reverse.map (fun d => Char.ofNat (48 + d)) := by
  unfold natChars
  rw [digitsRev_eq_digits n n le_rfl]

theorem digitChar_facts {d : Nat} (hd : d < 10) :
    (Char.ofNat (48 + d)).isDigit = true ∧ (Char.ofNat (48 + d)) ≠ '.' ∧
      (Char.ofNat (48 + d)).toNat - 48 = d := by
  interval_cases d <;> exact ⟨by decide, by decide, by decide⟩

theorem natChars_digits (n : Nat) :
    ∀ c ∈ natChars n, c.isDigit = true ∧ c ≠ '.' := by
  rw [natChars_eq]
  split
  · intro c hc
    rcases List.mem_singleton.mp hc with rfl
    exact ⟨by decide, by decide⟩
  · intro c hc
    obtain ⟨d, hd, rfl⟩ := List.mem_map.mp hc
    have hd10 : d < 10 :=
      Nat.digits_lt_base (by norm_num) (List.mem_reverse.mp hd)
    exact ⟨(digitChar_facts hd10).1, (digitChar_facts hd10).2.1⟩

theorem takeWhile_all_eq {p : Char → Bool} :
    ∀ (cs : List Char), (∀ c ∈ cs, p c = true) → cs.takeWhile p = cs
  | [], _ => rfl
  | c :: cs, h => by
    rw [List.takeWhile_cons, if_pos (h c (List.mem_cons_self c cs)),
      takeWhile_all_eq cs (fun c' h' => h c' (List.mem_cons_of_mem c h'))]

theorem stemOf_natChars (n : Nat) : stemOf (natChars n) = natChars n := by
  unfold stemOf
  refine takeWhile_all_eq _ (fun c hc => ?_)
  simpa using (natChars_digits n c hc).2

theorem pyIsDigit_natChars (n : Nat) : pyIsDigit (natChars n) = true := by
  unfold pyIsDigit
  rw [Bool.and_eq_true]
  constructor
  · rw [natChars_eq]
    split
    · decide
    · rename_i hn
      simp [List.isEmpty_iff, Nat.digits_ne_nil_iff_ne_zero.mpr hn]
  · rw [List.all_eq_true]
    exact fun c hc => (natChars_digits n c hc).1

theorem foldl_digits_val : ∀ (ds : List Nat),
    List.foldl (fun acc d => 10 * acc + d) 0 ds.reverse = Nat.ofDigits 10 ds
  | [] => rfl
  | d :: ds => by
    rw [List.reverse_cons, List.foldl_append, foldl_digits_val ds, Nat.ofDigits_cons,
      List.foldl_cons, List.foldl_nil]
    omega

theorem foldl_chars_of_digits : ∀ (ds : List Nat) (acc : Nat), (∀ d ∈ ds, d < 10) →
    List.foldl (fun a c => 10 * a + (c.toNat - 48)) acc
        (ds.map (fun d => Char.ofNat (48 + d))) =
      List.foldl (fun a d => 10 * a + d) acc ds
  | [], _, _ => rfl
  | d :: ds, acc, h => by
    rw [List.map_cons, List.foldl_cons, List.foldl_cons,
      (digitChar_facts (h d (List.mem_cons_self d ds))).2.2]
    exact foldl_chars_of_digits ds _ (fun d' h' => h d' (List.mem_cons_of_mem d h'))

theorem charsVal_natChars (n : Nat) : charsVal (natChars n) = n := by
  rw [natChars_eq]
  unfold charsVal
  split
  · rename_i hn
    rw [hn]
    decide
  · have hlt : ∀ d ∈ (Nat.digits 10 n).reverse, d < 10 :=
      fun d hd => Nat.digits_lt_base (by norm_num) (List.mem_reverse.mp hd)
    rw [foldl_chars_of_digits ((Nat.digits 10 n).reverse) 0 hlt,
      foldl_digits_val (Nat.digits 10 n)]
    exact Nat.ofDigits_digits 10 n

theorem dirListIds_map_natChars (l : List Nat) : dirListIds (l.map natChars) = l := by
  induction l with
  | nil => rfl
  | cons n l ih =>
    unfold dirListIds at ih ⊢
    rw [List.map_cons, List.filterMap_cons]
    simp only [stemOf_natChars, pyIsDigit_natChars, if_true, charsVal_natChars]
    rw [ih]

/-- C4 counterexample at a concrete export: with the scenario config
(`balancing_mod_operand = 10`) and the single surviving category id 2,
the decoded root index lists every shard id 0..9, yet shard 0 contains
no category file — the claim's equality with the set of non-empty
shards fails. -/
theorem root_dir_index_counterexample :
    dirListIds (rootEntries cfgS) = [0, 1, 2, 3, 4, 5, 6, 7, 8, 9] ∧
    shardEntries cfgS ⟨[2], []⟩ 0 = [] ∧
    dirListIds (shardEntries cfgS ⟨[2], []⟩ 0) = [] := by
  exact ⟨by decide, by decide, by decide⟩

/-- C4 amended: the root `dir_list.index`, decoded, lists exactly all
shard ids `0 .. balancing_mod_operand - 1`: every pre-created shard
directory has a digit-only name and is listed whether or not it
contains any `.category` file. -/
theorem root_dir_index_all_shards (cfg : RunConfig) :
    dirListIds (rootEntries cfg) = List.range cfg.balancing_mod_operand ∧
    dir_list_content (rootEntries cfg) =
      bytes_from_uint32 (List.range cfg.balancing_mod_operand) := by
  have h := dirListIds_map_natChars (List.range cfg.balancing_mod_operand)
  exact ⟨h, by rw [dir_list_content]; rw [show rootEntries cfg =
    (List.range cfg.balancing_mod_operand).map natChars from rfl, h]⟩

/-! ## Empty-graph and two-category scenario results -/

/-- C5: a run whose exclusions empty the category graph does not
complete: the small-category stage's percentile of the empty count
list fails (numpy raises `IndexError`), modelled as `none`; the
largest-component stage's `max` over zero components would likewise
raise.  The pipeline therefore cannot produce the empty dataset the
spec promises. -/
theorem empty_graph_pruning_fails : prunePipeline cfgE dataE = none := by decide

/-- C6 counterexample: in the A-parent-of-B scenario with five known
articles under B, `article_count_percentile = 0` and
`balancing_mod_operand = 10`, only node 2 (B) survives pruning — node
1 (A, with zero articles, below the threshold `min + 1 = 1`) is
removed, contradicting the claim that both nodes survive with
`predecessors = [A.id]` in B's record. -/
theorem scenario_parent_pruned :
    (prunePipeline cfgS dataS).map DiGraph.nodes = some [2] ∧
    (prunePipeline cfgS dataS).map (fun g => decide (1 ∈ g.nodes)) = some false := by
  exact ⟨by decide, by decide⟩

/-- C6 amended: in that scenario only B survives (A's article count 0
falls below the threshold 1), and the single exported record is
`B.category` in shard 2, decoding to name "B", empty predecessors,
empty successors, and exactly the five article ids with their names. -/
theorem scenario_only_child_exported :
    prunePipeline cfgS dataS = some ⟨[2], []⟩ ∧
    get_files_contents cfgS ⟨[2], []⟩ (dataAfterExclusion cfgS dataS) (fun xs _ => xs) =
      [((2, 2), serialize_category "B" [] [] [10, 11, 12, 13, 14]
        ["a0", "a1", "a2", "a3", "a4"])] := by
  exact ⟨by decide, by decide⟩

/-! ## Witnesses -/

theorem remove_small_categories_spec_witness :
    ∃ g', remove_small_categories (build_category_graph dataS) cfgS
        (dataAfterExclusion cfgS dataS) = some g' ∧
      ∀ n, n ∈ g'.nodes ↔
        (n ∈ (build_category_graph dataS).nodes ∧
          ¬(((dataAfterExclusion cfgS dataS).category_to_articles n).length <
            ⌊linearPercentile (articleCounts (build_category_graph dataS)
                (dataAfterExclusion cfgS dataS)) cfgS.article_count_percentile⌋₊ + 1)) :=
  remove_small_categories_spec _ _ _ (by decide) (by decide)

theorem tree_assembler_link_checks_witness :
    edgeJustified linksS (get_category_tree_data pagesS linksS).category_id_to_name
      (1, 2) ∧
    artJustified linksS (get_category_tree_data pagesS linksS).article_id_to_name
      (get_category_tree_data pagesS linksS).category_id_to_name 2 10 :=
  ⟨(tree_assembler_link_checks pagesS linksS).1 (1, 2) (by decide),
   (tree_assembler_link_checks pagesS linksS).2 2 10 (by decide)⟩

theorem export_articles_resolvable_not_excluded_witness :
    (dictLookup dataS.article_id_to_name 10).isSome ∧
    10 ∉ get_excluded_articles cfgS dataS :=
  export_articles_resolvable_not_excluded cfgS dataS (fun xs k => xs.take k) 2 10
    (fun xs k x hx => List.take_subset k xs hx) (by decide)

theorem export_lookups_never_fail_witness :
    (dictLookup (get_category_tree_data pagesS linksS).category_id_to_name 2).isSome ∧
    ∀ a ∈ exportedArticlesOf cfgS
        (dataAfterExclusion cfgS (get_category_tree_data pagesS linksS))
        (fun xs k => xs.take k) 2,
      (dictLookup (get_category_tree_data pagesS linksS).article_id_to_name a).isSome :=
  export_lookups_never_fail pagesS linksS cfgS ⟨[2], []⟩ (fun xs k => xs.take k)
    (fun xs k x hx => List.take_subset k xs hx) (by decide) 2 (by decide)

theorem export_write_schedule_independent_witness :
    applyWrites (get_files_contents cfgS ⟨[2], []⟩
        (dataAfterExclusion cfgS (get_category_tree_data pagesS linksS))
        (fun xs _ => xs)) =
      applyWrites ((get_files_contents cfgS ⟨[2], []⟩
        (dataAfterExclusion cfgS (get_category_tree_data pagesS linksS))
        (fun xs _ => xs)).reverse) :=
  export_write_schedule_independent pagesS linksS cfgS ⟨[2], []⟩ (fun xs _ => xs) _ _
    (by decide) (List.Perm.refl _) (List.reverse_perm _)

end WikiCategories
